import Mathlib

/-!
# Verification of the Amazon best-seller collection pipeline (src/app.py)

A shallow embedding of the extraction / rank-reconciliation pipeline of
`src/app.py`:

* the currency scanner `parse_usd_all` (the regex `USD_RE` is embedded as an
  explicit backtracking matcher with the same leftmost-match, first-alternative
  semantics as Python's `re.finditer`),
* the sale/original price selection made inline in `parse_http`,
* `discount_floor`,
* `canonical_amz_link` (with `urljoin` restricted to the root-relative and
  scheme-relative hrefs the `startswith("/")` guard admits),
* the page parser `parse_http` (its card-location and per-node field
  extractors are abstracted: a `Card` records the field extractors' outputs
  for one candidate DOM node; the dedup / slot-binding / overflow /
  slot-walking logic of lines 190-241 is embedded verbatim over `Card`s),
* `merge_by_rank`, and
* the orchestrator `fetch_products` with its two transports `fetch_by_http`
  and `fetch_by_playwright`, parameterized by oracles giving each page
  fetch's outcome (`Except.error` models a raised exception); the orchestrator
  model also returns how many times the rendering strategy was invoked.

Monetary amounts are modelled as exact rationals (the two-decimal amounts the
scanner accepts are exact in this representation).
-/

namespace AZBnp

/-! ## Currency scanner: `USD_RE` / `parse_usd_all` (app.py lines 55, 63-70) -/

/-- Numeric value of a decimal digit character. -/
def digitVal (c : Char) : Nat := c.toNat - '0'.toNat

/-- Value of a run of decimal digits. -/
def natOfDigits (ds : List Char) : Nat := ds.foldl (fun a c => a * 10 + digitVal c) 0

/-- `(?:,\d{3})*`, greedily: each iteration consumes a comma and exactly three
digits; returns the digits collected and the remaining input. -/
def commaGroups : List Char → List Char × List Char
  | ',' :: d1 :: d2 :: d3 :: rest =>
    if d1.isDigit && d2.isDigit && d3.isDigit then
      let (ds, r) := commaGroups rest
      (d1 :: d2 :: d3 :: ds, r)
    else ([], ',' :: d1 :: d2 :: d3 :: rest)
  | l => ([], l)

/-- `\.\d{2}`: a dot and exactly two digits. -/
def matchFrac : List Char → Option (Char × Char × List Char)
  | '.' :: d1 :: d2 :: rest =>
    if d1.isDigit && d2.isDigit then some (d1, d2, rest) else none
  | _ => none

/-- Exact rational value of a matched amount `intds ++ "." ++ [d1,d2]`
(commas already removed, as `float(m.group(1).replace(",",""))` does). -/
def amountVal (intds : List Char) (d1 d2 : Char) : ℚ :=
  (natOfDigits intds : ℚ) + (natOfDigits [d1, d2] : ℚ) / 100

/-- First alternative of `USD_RE`'s group:
`[\d]{1,3}(?:,\d{3})*(?:\.\d{2})`.  When more than three digits open the
group every backtracking choice of `\d{1,3}` leaves a digit where `,` or `.`
is required, so the branch fails; when the digit run has at most three digits
the greedy choice is the only viable one, and likewise the greedy
comma-group count is the only one that can be followed by `\.` (every shorter
choice leaves a `,` there). -/
def branch1 (s : List Char) : Option (ℚ × List Char) :=
  let run := s.takeWhile Char.isDigit
  let rest := s.dropWhile Char.isDigit
  if run.length = 0 ∨ 3 < run.length then none
  else
    let gr := commaGroups rest
    match matchFrac gr.2 with
    | some (d1, d2, rest2) => some (amountVal (run ++ gr.1) d1 d2, rest2)
    | none => none

/-- Second alternative of `USD_RE`'s group: `[\d]+(?:\.\d{2})?`. -/
def branch2 (s : List Char) : Option (ℚ × List Char) :=
  let run := s.takeWhile Char.isDigit
  let rest := s.dropWhile Char.isDigit
  if run.length = 0 then none
  else
    match matchFrac rest with
    | some (d1, d2, rest2) => some (amountVal run d1 d2, rest2)
    | none => some ((natOfDigits run : ℚ), rest)

/-- `(?:US\$|\$)`: the currency symbol, first alternative first. -/
def matchSym : List Char → Option (List Char)
  | 'U' :: 'S' :: '$' :: rest => some rest
  | '$' :: rest => some rest
  | _ => none

/-- One attempted match of `USD_RE` at the head of `s`: symbol, `\s*`, then
the amount group (first alternative preferred, as the regex engine does). -/
def matchUSD (s : List Char) : Option (ℚ × List Char) :=
  match matchSym s with
  | none => none
  | some r1 =>
    let r2 := r1.dropWhile Char.isWhitespace
    match branch1 r2 with
    | some v => some v
    | none => branch2 r2

/-- `USD_RE.finditer`: try a match at every position, left to right,
continuing after each match (matches are non-overlapping).  Fuel bounds the
recursion; every successful match consumes at least two characters, so fuel
equal to the input length never runs out. -/
def scanUSDAux : Nat → List Char → List ℚ
  | 0, _ => []
  | _, [] => []
  | Nat.succ n, c :: rest =>
    match matchUSD (c :: rest) with
    | some (v, r) => v :: scanUSDAux n r
    | none => scanUSDAux n rest

/-- `parse_usd_all` (app.py 63-70): every `USD_RE` match, parsed, keeping the
positive values.  (`float()` cannot fail on a matched token, so the
`try/except` never fires.) -/
def parse_usd_all (t : String) : List ℚ :=
  (scanUSDAux t.length t.data).filter (fun v => 0 < v)

/-! ## Price selection and discount (app.py 78-80, 218-223) -/

/-- The inline sale/original selection of `parse_http` (app.py 219-223):
`sale = orig = None; if len(prices)==1: sale=prices[0]
elif len(prices)>=2: sale,orig = min,max; if sale==orig: orig=None`. -/
def price_pair (prices : List ℚ) : Option ℚ × Option ℚ :=
  match prices with
  | [] => (none, none)
  | [p] => (some p, none)
  | p :: q :: rest =>
    let sale := (q :: rest).foldl min p
    let orig := (q :: rest).foldl max p
    (some sale, if sale = orig then none else some orig)

/-- `discount_floor` (app.py 78-80).  Python's
`if orig and sale and orig>0` is truthiness: `None` and `0.0` are falsy. -/
def discount_floor (orig sale : Option ℚ) : Option ℤ :=
  match orig, sale with
  | some o, some s =>
    if o ≠ 0 ∧ s ≠ 0 ∧ 0 < o then some (max 0 ⌊(1 - s / o) * 100⌋) else none
  | _, _ => none

/-! ## Records and links -/

/-- The `Product` dataclass (app.py 82-91), field for field. -/
structure Product where
  rank : Option ℤ
  brand : String
  title : String
  price : Option ℚ
  orig_price : Option ℚ
  discount_percent : Option ℤ
  url : String
  asin : String
deriving DecidableEq, Repr

/-- `[A-Z0-9]`, the ASIN character class. -/
def isAsinChar (c : Char) : Bool := c.isUpper || c.isDigit

/-- `ASIN_IN_HREF.search` (app.py 56): leftmost occurrence of `/dp/`
followed by ten ASIN characters; the captured group. -/
def asin_in_href : List Char → Option String
  | [] => none
  | c :: rest =>
    if c = '/' ∧ rest.take 3 = ['d', 'p', '/'] ∧
        ((rest.drop 3).take 10).length = 10 ∧ ((rest.drop 3).take 10).all isAsinChar
    then some (String.mk ((rest.drop 3).take 10))
    else asin_in_href rest

/-- `urljoin("https://www.amazon.com", href)` for an `href` that starts with
`/`: scheme-relative `//host/...` hrefs keep their host, root-relative ones
are resolved against the base origin. -/
def urljoin_amz (href : String) : String :=
  if href.startsWith "//" then "https:" ++ href else "https://www.amazon.com" ++ href

/-- `canonical_amz_link` (app.py 94-100). -/
def canonical_amz_link (href : String) (fallback_asin : String) : String :=
  if href = "" ∧ fallback_asin ≠ "" then "https://www.amazon.com/dp/" ++ fallback_asin
  else
    let href2 := if href ≠ "" ∧ href.startsWith "/" then urljoin_amz href else href
    match asin_in_href href2.data with
    | some a => "https://www.amazon.com/dp/" ++ a
    | none =>
      if href2 ≠ "" then href2
      else if fallback_asin ≠ "" then "https://www.amazon.com/dp/" ++ fallback_asin
      else ""

/-! ## The page parser `parse_http` (app.py 161-241)

A `Card` records what the field extractors return for one candidate node
produced by the card locator, in document order:
`rankHint = extract_rank_from_node(node)`,
`asin = extract_asin_from_node(node)` (`""` when extraction fails),
`title` = the resolved title after the aria-label / title / text / img-alt /
span fallbacks (`""` when none resolves),
`brand = extract_brand_from_container(node, title)`,
`text` = `clean_text(node.get_text(...))`, and `href` = the primary link's
href (`""` when there is none).  The dedup / slot / overflow logic below
those extractions (app.py 190-241) is embedded verbatim. -/

structure Card where
  rankHint : Option ℤ
  asin : String
  title : String
  brand : String
  text : String
  href : String
deriving DecidableEq, Repr

/-- The record built for a surviving card (app.py 199-227). -/
def build_product (c : Card) : Product :=
  let link := canonical_amz_link c.href c.asin
  let so := price_pair (parse_usd_all c.text)
  { rank := none, brand := c.brand, title := c.title, price := so.1,
    orig_price := so.2, discount_percent := discount_floor so.2 so.1,
    url := link, asin := c.asin }

/-- The loop state of `parse_http` (app.py 190-192): the `by_rank` dict, the
`seen_asin` set, and the `extras` overflow queue. -/
structure ParseState where
  byRank : ℤ → Option Product
  seen : List String
  extras : List Product

def init_state : ParseState := ⟨fun _ => none, [], []⟩

/-- One iteration of the candidate loop (app.py 194-233).  `if not asin or
asin in seen_asin: continue`; a title-less candidate is dropped but its asin
recorded; otherwise the record is bound to its hinted slot when the hint is
truthy, in `[1,50]` and the slot is unused, else appended to `extras`;
the asin is recorded. -/
def parse_step (st : ParseState) (c : Card) : ParseState :=
  if c.asin = "" ∨ c.asin ∈ st.seen then st
  else if c.title = "" then { st with seen := c.asin :: st.seen }
  else
    match c.rankHint with
    | some r =>
      if r ≠ 0 ∧ 1 ≤ r ∧ r ≤ 50 ∧ st.byRank r = none then
        { st with byRank := fun x => if x = r then some (build_product c) else st.byRank x,
                  seen := c.asin :: st.seen }
      else { st with extras := st.extras ++ [build_product c], seen := c.asin :: st.seen }
    | none => { st with extras := st.extras ++ [build_product c], seen := c.asin :: st.seen }

def parse_cards (cards : List Card) : ParseState :=
  cards.foldl parse_step init_state

/-- The local slot numbers `1..50`. -/
def slotList50 : List ℤ := (List.range 50).map (fun i : ℕ => (i : ℤ) + 1)

/-- The output walk (app.py 235-241): for each local slot in order, the bound
record if any, else the next overflow record (FIFO); the emitted record's
rank is set to `page_idx*50 + r`. -/
def emit_slots (byRank : ℤ → Option Product) (page_idx : Nat) :
    List ℤ → List Product → List Product
  | [], _ => []
  | r :: rs, extras =>
    match byRank r with
    | some p => { p with rank := some ((page_idx : ℤ) * 50 + r) } :: emit_slots byRank page_idx rs extras
    | none =>
      match extras with
      | [] => emit_slots byRank page_idx rs []
      | e :: es => { e with rank := some ((page_idx : ℤ) * 50 + r) } :: emit_slots byRank page_idx rs es

/-- `parse_http` (app.py 161-241), over the located cards' extraction
results. -/
def parse_http (cards : List Card) (page_idx : Nat) : List Product :=
  let st := parse_cards cards
  emit_slots st.byRank page_idx slotList50 st.extras

/-! ## `merge_by_rank` (app.py 558-567) -/

/-- One `by_rank[p.rank] = p` insertion: records with falsy rank (`None` or
`0`) are skipped. -/
def updOne (m : ℤ → Option Product) (p : Product) : ℤ → Option Product :=
  match p.rank with
  | none => m
  | some r => if r = 0 then m else fun x => if x = r then some p else m x

/-- The `by_rank` dict after inserting every list of `lists` in order. -/
def buildRankMap (lists : List (List Product)) : ℤ → Option Product :=
  lists.foldl (fun m L => L.foldl updOne m) (fun _ => none)

/-- The global rank slots `1..100`. -/
def slotList100 : List ℤ := (List.range 100).map (fun i : ℕ => (i : ℤ) + 1)

/-- `merge_by_rank(*lists)` (app.py 558-567): last-supplied record wins per
rank; output walks ranks 1..100 in order, setting each emitted record's rank
to its slot. -/
def merge_by_rank (lists : List (List Product)) : List Product :=
  slotList100.filterMap
    (fun r => (buildRankMap lists r).map (fun p => { p with rank := some r }))

/-! ## Transports and orchestrator (app.py 244-276, 546-555, 569-590)

The oracles give each page fetch's outcome: `f page url` is what
`http_fetch_page(PAGE_CANDIDATES[page][url], page)` does after its own retry
loop — `Except.ok records` for a return, `Except.error ()` for a raised
exception; `g page url` likewise for `fetch_page_playwright`.  `urlIdx`
indexes the three URL candidates of each page slot (`PAGE_CANDIDATES`). -/

def urlIdx : List Nat := List.range 3

/-- The per-page candidate loop of `fetch_by_http` (app.py 266-273): a
raised candidate is swallowed (`except Exception: continue`), keeping the
previous `got`; a candidate yielding ≥ 48 records breaks the loop; otherwise
its (smaller) result replaces `got`. -/
def http_fetch_loop (f : Nat → Nat → Except Unit (List Product)) (page : Nat) :
    List Nat → List Product → List Product
  | [], got => got
  | u :: us, got =>
    match f page u with
    | .ok r => if 48 ≤ r.length then r else http_fetch_loop f page us r
    | .error _ => http_fetch_loop f page us got

/-- `fetch_by_http` (app.py 264-276): both page slots in order, results
concatenated.  It never raises. -/
def fetch_by_http (f : Nat → Nat → Except Unit (List Product)) : List Product :=
  http_fetch_loop f 0 urlIdx [] ++ http_fetch_loop f 1 urlIdx []

/-- The per-page candidate loop of `fetch_by_playwright` (app.py 548-552):
there is no `try` around `fetch_page_playwright`, so an exception
propagates. -/
def pw_fetch_loop (g : Nat → Nat → Except Unit (List Product)) (page : Nat) :
    List Nat → List Product → Except Unit (List Product)
  | [], got => .ok got
  | u :: us, _ =>
    match g page u with
    | .error e => .error e
    | .ok r => if 48 ≤ r.length then .ok r else pw_fetch_loop g page us r

/-- `fetch_by_playwright` (app.py 546-555). -/
def fetch_by_playwright (g : Nat → Nat → Except Unit (List Product)) :
    Except Unit (List Product) :=
  match pw_fetch_loop g 0 urlIdx [] with
  | .error e => .error e
  | .ok a =>
    match pw_fetch_loop g 1 urlIdx [] with
    | .error e => .error e
    | .ok b => .ok (a ++ b)

/-- `fetch_products` (app.py 569-590), with `g1`/`g2` the outcomes of the
first and second rendering passes.  The second component counts how many
times `fetch_by_playwright` was invoked.  Step 1's `try/except` nets to
`items = items_http if len(items_http) >= 96 else []` (the `raise` on a
short yield is caught by its own `except`, and `fetch_by_http` itself cannot
raise); an exception from either rendering pass propagates. -/
def fetch_products (f g1 g2 : Nat → Nat → Except Unit (List Product)) :
    Except Unit (List Product) × Nat :=
  let itemsHttp := fetch_by_http f
  let items0 := if 96 ≤ itemsHttp.length then itemsHttp else []
  let step2 : Except Unit (List Product) × Nat :=
    if items0.length < 96 then
      match fetch_by_playwright g1 with
      | .error e => (.error e, 1)
      | .ok pw => (.ok (merge_by_rank [items0, pw]), 1)
    else (.ok items0, 0)
  match step2 with
  | (.error e, n) => (.error e, n)
  | (.ok items1, n) =>
    if items1.length < 100 then
      match fetch_by_playwright g2 with
      | .error e => (.error e, n + 1)
      | .ok pw2 => (.ok (merge_by_rank [merge_by_rank [items1, pw2]]), n + 1)
    else (.ok (merge_by_rank [items1]), n)

/-! ## Lemmas about `merge_by_rank` -/

/-- Setting a record's rank to its slot, as the merge output walk does. -/
def setRank (r : ℤ) (p : Product) : Product := { p with rank := some r }

theorem setRank_setRank (r : ℤ) (p : Product) : setRank r (setRank r p) = setRank r p := rfl

theorem merge_by_rank_eq (lists : List (List Product)) :
    merge_by_rank lists
      = slotList100.filterMap (fun r => (buildRankMap lists r).map (setRank r)) := rfl

/-- Inserting a list of records into a rank map: the list's own (last-wins)
bindings take precedence over the map inserted into. -/
theorem foldl_updOne_or (L : List Product) (m : ℤ → Option Product) (r : ℤ) :
    (L.foldl updOne m) r = ((L.foldl updOne (fun _ => none)) r).or (m r) := by
  induction L generalizing m with
  | nil => simp [List.foldl]
  | cons p L ih =>
    simp only [List.foldl]
    rw [ih (updOne m p), ih (updOne (fun _ => none) p), Option.or_assoc]
    congr 1
    unfold updOne
    cases hp : p.rank with
    | none => simp
    | some rr =>
      by_cases h0 : rr = 0
      · simp [h0]
      · by_cases hxr : r = rr
        · simp [h0, hxr]
        · simp [h0, hxr]

theorem buildRankMap_single (L : List Product) :
    buildRankMap [L] = L.foldl updOne (fun _ => none) := rfl

theorem buildRankMap_pair (A B : List Product) (r : ℤ) :
    buildRankMap [A, B] r = (buildRankMap [B] r).or (buildRankMap [A] r) := by
  show (B.foldl updOne (A.foldl updOne (fun _ => none))) r = _
  rw [foldl_updOne_or B]
  rfl

theorem buildRankMap_triple (A B C : List Product) (r : ℤ) :
    buildRankMap [A, B, C] r
      = (buildRankMap [C] r).or ((buildRankMap [B] r).or (buildRankMap [A] r)) := by
  show (C.foldl updOne (B.foldl updOne (A.foldl updOne (fun _ => none)))) r = _
  rw [foldl_updOne_or C, foldl_updOne_or B]
  rfl

theorem slotList100_nodup : slotList100.Nodup := by decide

theorem slotList100_nonzero : ∀ x ∈ slotList100, x ≠ (0 : ℤ) := by decide

theorem slotList100_bounds : ∀ x ∈ slotList100, 1 ≤ x ∧ x ≤ 100 := by decide

theorem mem_slotList100 {r : ℤ} (h1 : 1 ≤ r) (h2 : r ≤ 100) : r ∈ slotList100 := by
  have hx : (r - 1).toNat ∈ List.range 100 := List.mem_range.mpr (by omega)
  have hm := List.mem_map_of_mem (fun i : ℕ => (i : ℤ) + 1) hx
  have hy : (fun i : ℕ => (i : ℤ) + 1) (r - 1).toNat = r := by
    show ((r - 1).toNat : ℤ) + 1 = r
    omega
  rw [hy] at hm
  exact hm

/-- Looking a slot up in the rank map built from a merge output: the merge
output binds exactly the slots of `slotList100` the underlying map binds. -/
theorem lookup_filterMap (S : List ℤ) (g : ℤ → Option Product) (r : ℤ)
    (hS : S.Nodup) (h0 : ∀ x ∈ S, x ≠ 0) :
    ((S.filterMap (fun x => (g x).map (setRank x))).foldl updOne (fun _ => none)) r
      = if r ∈ S then (g r).map (setRank r) else none := by
  induction S with
  | nil => simp [List.foldl]
  | cons s S ih =>
    have hsS : s ∉ S := (List.nodup_cons.mp hS).1
    have hS' : S.Nodup := (List.nodup_cons.mp hS).2
    have h0' : ∀ x ∈ S, x ≠ 0 := fun x hx => h0 x (List.mem_cons_of_mem s hx)
    have hs0 : s ≠ 0 := h0 s (List.mem_cons_self s S)
    cases hg : g s with
    | none =>
      rw [List.filterMap_cons]
      simp only [hg, Option.map_none']
      rw [ih hS' h0']
      by_cases hr : r = s
      · subst hr
        rw [if_neg hsS, if_pos (List.mem_cons_self r S), hg]
        rfl
      · simp only [List.mem_cons, hr, false_or]
    | some p =>
      rw [List.filterMap_cons]
      simp only [hg, Option.map_some']
      show ((setRank s p :: _).foldl updOne _) r = _
      simp only [List.foldl]
      rw [foldl_updOne_or, ih hS' h0']
      have hupd : (updOne (fun _ => none) (setRank s p)) r
          = (if r = s then some (setRank s p) else none) := by
        unfold updOne setRank
        simp only [hs0, if_false]
      rw [hupd]
      by_cases hr : r = s
      · subst hr
        rw [if_neg hsS, if_pos rfl, if_pos (List.mem_cons_self r S), hg]
        rfl
      · rw [if_neg hr, Option.or_none]
        simp only [List.mem_cons, hr, false_or]

theorem buildRankMap_merge (ls : List (List Product)) (r : ℤ) :
    buildRankMap [merge_by_rank ls] r
      = if r ∈ slotList100 then (buildRankMap ls r).map (setRank r) else none := by
  rw [buildRankMap_single, merge_by_rank_eq]
  exact lookup_filterMap slotList100 (buildRankMap ls) r slotList100_nodup slotList100_nonzero

theorem opt_map_or (f : Product → Product) (a b : Option Product) :
    (a.or b).map f = (a.map f).or (b.map f) := by
  cases a <;> rfl

theorem opt_mapSet_mapSet (r : ℤ) (o : Option Product) :
    (o.map (setRank r)).map (setRank r) = o.map (setRank r) := by
  cases o <;> simp [setRank_setRank]

theorem merge_group_left (A B C : List Product) :
    merge_by_rank [merge_by_rank [A, B], C] = merge_by_rank [A, B, C] := by
  rw [merge_by_rank_eq, merge_by_rank_eq [A, B, C]]
  apply List.filterMap_congr
  intro r hr
  rw [buildRankMap_pair, buildRankMap_triple, buildRankMap_merge, if_pos hr,
    buildRankMap_pair]
  simp only [opt_map_or, opt_mapSet_mapSet, Option.or_assoc]

theorem merge_group_right (A B C : List Product) :
    merge_by_rank [A, merge_by_rank [B, C]] = merge_by_rank [A, B, C] := by
  rw [merge_by_rank_eq, merge_by_rank_eq [A, B, C]]
  apply List.filterMap_congr
  intro r hr
  rw [buildRankMap_pair, buildRankMap_triple, buildRankMap_merge, if_pos hr,
    buildRankMap_pair]
  simp only [opt_map_or, opt_mapSet_mapSet, Option.or_assoc]

/-- Ranks compare strictly: both records carry a rank and they increase. -/
def rankLTb (p q : Product) : Bool :=
  match p.rank, q.rank with
  | some a, some b => decide (a < b)
  | _, _ => false

/-- The record carries a rank in `[1, 100]`. -/
def rankIn100b (p : Product) : Bool :=
  match p.rank with
  | some r => decide (1 ≤ r) && decide (r ≤ 100)
  | none => false

/-- A well-formed full result: ranks all present, in `[1,100]`, strictly
increasing (what a static pass built from two page parses satisfies). -/
def rankSound (L : List Product) : Prop :=
  List.Pairwise (fun p q => rankLTb p q = true) L ∧ ∀ p ∈ L, rankIn100b p = true

theorem foldl_updOne_none (L : List Product) (r : ℤ)
    (h : ∀ q ∈ L, ∀ a, q.rank = some a → a ≠ 0 → a ≠ r) :
    (L.foldl updOne (fun _ => none)) r = none := by
  induction L with
  | nil => rfl
  | cons p L ih =>
    simp only [List.foldl]
    rw [foldl_updOne_or,
      ih (fun q hq => h q (List.mem_cons_of_mem p hq)), Option.none_or]
    unfold updOne
    cases hp : p.rank with
    | none => rfl
    | some a =>
      by_cases h0 : a = 0
      · simp [h0]
      · have hne : a ≠ r := h p (List.mem_cons_self p L) a hp h0
        simp only [h0, if_false]
        show (if r = a then some p else (fun _ : ℤ => (none : Option Product)) r) = none
        rw [if_neg (fun h' : r = a => hne h'.symm)]

/-- A rank-sound list, merged alone, survives the merge's rank walk
untouched. -/
theorem merge_single_sorted (S : List ℤ) (L : List Product)
    (hS : List.Pairwise (· < ·) S)
    (hL : List.Pairwise (fun p q => rankLTb p q = true) L)
    (hmem : ∀ p ∈ L, ∃ r, p.rank = some r ∧ r ∈ S ∧ r ≠ 0) :
    S.filterMap (fun x => ((L.foldl updOne (fun _ => none)) x).map (setRank x)) = L := by
  induction S generalizing L with
  | nil =>
    cases L with
    | nil => rfl
    | cons p L =>
      obtain ⟨r, _, hrS, _⟩ := hmem p (List.mem_cons_self p L)
      exact absurd hrS (List.not_mem_nil r)
  | cons s S ih =>
    have hsS : ∀ x ∈ S, s < x := (List.pairwise_cons.mp hS).1
    have hS' : List.Pairwise (· < ·) S := (List.pairwise_cons.mp hS).2
    cases L with
    | nil =>
      have hnone : ∀ x : ℤ, (List.foldl updOne (fun _ => none) ([] : List Product)) x = none :=
        fun _ => rfl
      simp [hnone]
    | cons p L' =>
      obtain ⟨r0, hp, hr0S, hr00⟩ := hmem p (List.mem_cons_self p L')
      have hL'lt : ∀ q ∈ L', ∀ a, q.rank = some a → r0 < a := by
        intro q hq a ha
        have hb := (List.pairwise_cons.mp hL).1 q hq
        unfold rankLTb at hb
        rw [hp, ha] at hb
        exact of_decide_eq_true hb
      have hL' : List.Pairwise (fun p q => rankLTb p q = true) L' :=
        (List.pairwise_cons.mp hL).2
      by_cases hrs : r0 = s
      · subst hrs
        have hnone' : (L'.foldl updOne (fun _ => none)) r0 = none :=
          foldl_updOne_none _ _ (fun q hq a ha _ => ne_of_gt (hL'lt q hq a ha))
        have hlook : ((p :: L').foldl updOne (fun _ => none)) r0 = some p := by
          simp only [List.foldl]
          rw [foldl_updOne_or, hnone', Option.none_or]
          unfold updOne
          simp only [hp, hr00, if_false]
          simp
        have hsetp : setRank r0 p = p := by
          unfold setRank
          cases p
          simp only at hp
          simp [hp]
        rw [List.filterMap_cons]
        simp only [hlook, Option.map_some']
        rw [hsetp]
        congr 1
        have htail : ∀ x ∈ S,
            ((p :: L').foldl updOne (fun _ => none)) x
              = (L'.foldl updOne (fun _ => none)) x := by
          intro x hx
          simp only [List.foldl]
          rw [foldl_updOne_or]
          have hx0 : updOne (fun _ => none) p x = none := by
            unfold updOne
            simp only [hp, hr00, if_false]
            have hxne : ¬ (x = r0) := by
              have := hsS x hx
              omega
            simp [hxne]
          rw [hx0, Option.or_none]
        rw [List.filterMap_congr (fun x hx => by rw [htail x hx])]
        apply ih _ hS' hL'
        intro q hq
        obtain ⟨rq, hq1, hq2, hq3⟩ := hmem q (List.mem_cons_of_mem p hq)
        refine ⟨rq, hq1, ?_, hq3⟩
        have hlt : r0 < rq := hL'lt q hq rq hq1
        cases List.mem_cons.mp hq2 with
        | inl h => omega
        | inr h => exact h
      · have hsr0 : s < r0 := by
          cases List.mem_cons.mp hr0S with
          | inl h => exact absurd h hrs
          | inr h => exact hsS r0 h
        have hall : ∀ q ∈ p :: L', ∀ a, q.rank = some a → s < a := by
          intro q hq a ha
          cases List.mem_cons.mp hq with
          | inl h =>
            subst h
            have : a = r0 := by
              rw [hp] at ha
              exact (Option.some.inj ha).symm
            omega
          | inr h =>
            have := hL'lt q h a ha
            omega
        have hslook : ((p :: L').foldl updOne (fun _ => none)) s = none :=
          foldl_updOne_none _ _ (fun q hq a ha _ => ne_of_gt (hall q hq a ha))
        rw [List.filterMap_cons]
        simp only [hslook, Option.map_none']
        apply ih _ hS' hL
        intro q hq
        obtain ⟨rq, h1, h2, h3⟩ := hmem q hq
        refine ⟨rq, h1, ?_, h3⟩
        have : s < rq := hall q hq rq h1
        cases List.mem_cons.mp h2 with
        | inl h => omega
        | inr h => exact h

theorem merge_single_of_rankSound (L : List Product) (h : rankSound L) :
    merge_by_rank [L] = L := by
  rw [merge_by_rank_eq]
  rw [show (fun r => (buildRankMap [L] r).map (setRank r))
      = (fun r => ((L.foldl updOne (fun _ => none)) r).map (setRank r)) from rfl]
  apply merge_single_sorted slotList100 L (by decide) h.1
  intro p hp
  have := h.2 p hp
  unfold rankIn100b at this
  cases hr : p.rank with
  | none => rw [hr] at this; exact absurd this (by simp)
  | some r =>
    rw [hr] at this
    have hb := (Bool.and_eq_true _ _).mp this
    have h1 : 1 ≤ r := of_decide_eq_true hb.1
    have h2 : r ≤ 100 := of_decide_eq_true hb.2
    exact ⟨r, rfl, mem_slotList100 h1 h2, by omega⟩

theorem merge_self (A : List Product) : merge_by_rank [A, A] = merge_by_rank [A] := by
  rw [merge_by_rank_eq, merge_by_rank_eq [A]]
  apply List.filterMap_congr
  intro r _
  rw [buildRankMap_pair, Option.or_self]

/-- **C3**: merge-by-rank is associative in precedence order: merging A then
B then C yields, for each rank slot 1..100, C's record for that rank if C
supplies one (the last record of C whose `rank` field is that slot), else
B's, else A's, regardless of how the merges are grouped; a record's `rank`
field, not its list position, determines its placement. -/
theorem claim3_merge_precedence (A B C : List Product) :
    merge_by_rank [merge_by_rank [A, B], C] = merge_by_rank [A, B, C] ∧
    merge_by_rank [A, merge_by_rank [B, C]] = merge_by_rank [A, B, C] ∧
    ∀ r : ℤ, 1 ≤ r → r ≤ 100 →
      buildRankMap [A, B, C] r
          = (buildRankMap [C] r).or ((buildRankMap [B] r).or (buildRankMap [A] r)) ∧
      ∀ p, (buildRankMap [C] r).or ((buildRankMap [B] r).or (buildRankMap [A] r)) = some p →
        setRank r p ∈ merge_by_rank [A, B, C] := by
  refine ⟨merge_group_left A B C, merge_group_right A B C, ?_⟩
  intro r h1 h2
  refine ⟨buildRankMap_triple A B C r, ?_⟩
  intro p hp
  rw [merge_by_rank_eq]
  apply List.mem_filterMap.mpr
  refine ⟨r, mem_slotList100 h1 h2, ?_⟩
  rw [buildRankMap_triple, hp]
  rfl

/-- **C9**: merge-by-rank is idempotent: for any result set A, merging A
with itself yields the same records as merging A alone. -/
theorem claim9_merge_idempotent (A : List Product) :
    merge_by_rank [A, A] = merge_by_rank [A] :=
  merge_self A

/-! ## Lemmas about prices and discounts -/

theorem foldl_min_mem (a : ℚ) (l : List ℚ) : l.foldl min a ∈ a :: l := by
  induction l generalizing a with
  | nil => simp [List.foldl]
  | cons b l ih =>
    simp only [List.foldl]
    rcases List.mem_cons.mp (ih (min a b)) with h1 | h2
    · rw [h1]
      rcases min_choice a b with hm | hm <;> rw [hm]
      · exact List.mem_cons_self _ _
      · exact List.mem_cons_of_mem _ (List.mem_cons_self _ _)
    · exact List.mem_cons_of_mem _ (List.mem_cons_of_mem _ h2)

theorem foldl_min_le (a : ℚ) (l : List ℚ) : ∀ x ∈ a :: l, l.foldl min a ≤ x := by
  induction l generalizing a with
  | nil =>
    intro x hx
    rw [List.mem_singleton] at hx
    simp [hx]
  | cons b l ih =>
    intro x hx
    simp only [List.foldl]
    have hbase : l.foldl min (min a b) ≤ min a b :=
      ih (min a b) (min a b) (List.mem_cons_self _ _)
    rcases List.mem_cons.mp hx with h1 | h2
    · subst h1
      exact le_trans hbase (min_le_left _ _)
    · rcases List.mem_cons.mp h2 with h3 | h4
      · subst h3
        exact le_trans hbase (min_le_right _ _)
      · exact ih (min a b) x (List.mem_cons_of_mem _ h4)

theorem foldl_max_mem (a : ℚ) (l : List ℚ) : l.foldl max a ∈ a :: l := by
  induction l generalizing a with
  | nil => simp [List.foldl]
  | cons b l ih =>
    simp only [List.foldl]
    rcases List.mem_cons.mp (ih (max a b)) with h1 | h2
    · rw [h1]
      rcases max_choice a b with hm | hm <;> rw [hm]
      · exact List.mem_cons_self _ _
      · exact List.mem_cons_of_mem _ (List.mem_cons_self _ _)
    · exact List.mem_cons_of_mem _ (List.mem_cons_of_mem _ h2)

theorem le_foldl_max (a : ℚ) (l : List ℚ) : ∀ x ∈ a :: l, x ≤ l.foldl max a := by
  induction l generalizing a with
  | nil =>
    intro x hx
    rw [List.mem_singleton] at hx
    simp [hx]
  | cons b l ih =>
    intro x hx
    simp only [List.foldl]
    have hbase : max a b ≤ l.foldl max (max a b) :=
      ih (max a b) (max a b) (List.mem_cons_self _ _)
    rcases List.mem_cons.mp hx with h1 | h2
    · subst h1
      exact le_trans (le_max_left _ _) hbase
    · rcases List.mem_cons.mp h2 with h3 | h4
      · subst h3
        exact le_trans (le_max_right _ _) hbase
      · exact ih (max a b) x (List.mem_cons_of_mem _ h4)

/-- With two or more prices, `price_pair` returns the minimum as the sale
price and the maximum as the original, clearing the latter when equal. -/
theorem price_pair_two (prices : List ℚ) (h : 2 ≤ prices.length) :
    ∃ sv ov, sv ∈ prices ∧ ov ∈ prices ∧ (∀ v ∈ prices, sv ≤ v ∧ v ≤ ov) ∧
      price_pair prices = (some sv, if sv = ov then none else some ov) := by
  match prices, h with
  | p :: q :: rest, _ =>
    refine ⟨(q :: rest).foldl min p, (q :: rest).foldl max p,
      foldl_min_mem p (q :: rest), foldl_max_mem p (q :: rest), ?_, rfl⟩
    intro v hv
    exact ⟨foldl_min_le p (q :: rest) v hv, le_foldl_max p (q :: rest) v hv⟩

theorem scan_1999 : scanUSDAux ("$19.99".length) "$19.99".data
    = [amountVal ['1', '9'] '9' '9'] := rfl

theorem scan_1999_2499 : scanUSDAux ("$19.99 $24.99".length) "$19.99 $24.99".data
    = [amountVal ['1', '9'] '9' '9', amountVal ['2', '4'] '9' '9'] := rfl

theorem amountVal_1999 : amountVal ['1', '9'] '9' '9' = 19.99 := by
  have h1 : natOfDigits ['1', '9'] = 19 := rfl
  have h2 : natOfDigits ['9', '9'] = 99 := rfl
  unfold amountVal
  rw [h1, h2]
  norm_num

theorem amountVal_2499 : amountVal ['2', '4'] '9' '9' = 24.99 := by
  have h1 : natOfDigits ['2', '4'] = 24 := rfl
  have h2 : natOfDigits ['9', '9'] = 99 := rfl
  unfold amountVal
  rw [h1, h2]
  norm_num

theorem parse_usd_1999 : parse_usd_all "$19.99" = [19.99] := by
  unfold parse_usd_all
  rw [scan_1999, amountVal_1999]
  simp only [List.filter]
  norm_num

theorem parse_usd_1999_2499 : parse_usd_all "$19.99 $24.99" = [19.99, 24.99] := by
  unfold parse_usd_all
  rw [scan_1999_2499, amountVal_1999, amountVal_2499]
  simp only [List.filter]
  norm_num

theorem price_pair_1999_2499 : price_pair [(19.99 : ℚ), 24.99] = (some 19.99, some 24.99) := by
  unfold price_pair
  simp only [List.foldl]
  rw [min_eq_left (by norm_num : (19.99 : ℚ) ≤ 24.99),
    max_eq_right (by norm_num : (19.99 : ℚ) ≤ 24.99),
    if_neg (by norm_num : ¬((19.99 : ℚ) = 24.99))]

/-- **C5**: price extraction — one positive currency token becomes the sale
price with no original (`"$19.99"` ↦ sale 19.99, original absent); with two
or more, the minimum becomes the sale price and the maximum the original
(`"$19.99 $24.99"` ↦ sale 19.99, original 24.99); equal min and max clear
the original price. -/
theorem claim5_price_extraction :
    (parse_usd_all "$19.99" = [19.99] ∧
      price_pair (parse_usd_all "$19.99") = (some 19.99, none)) ∧
    (parse_usd_all "$19.99 $24.99" = [19.99, 24.99] ∧
      price_pair (parse_usd_all "$19.99 $24.99") = (some 19.99, some 24.99)) ∧
    (∀ p : ℚ, price_pair [p] = (some p, none)) ∧
    ∀ prices : List ℚ, 2 ≤ prices.length →
      ∃ sv ov, sv ∈ prices ∧ ov ∈ prices ∧ (∀ v ∈ prices, sv ≤ v ∧ v ≤ ov) ∧
        price_pair prices = (some sv, if sv = ov then none else some ov) := by
  refine ⟨⟨parse_usd_1999, ?_⟩, ⟨parse_usd_1999_2499, ?_⟩, fun p => rfl, price_pair_two⟩
  · rw [parse_usd_1999]
    rfl
  · rw [parse_usd_1999_2499, price_pair_1999_2499]

/-- Everything `parse_usd_all` returns is positive (the `if v > 0` guard). -/
theorem parse_usd_all_pos (t : String) : ∀ v ∈ parse_usd_all t, 0 < v := by
  intro v hv
  have := (List.mem_filter.mp hv).2
  exact of_decide_eq_true this

/-- **C6**: `discountPercent` is computed only when both prices are present
(and the original, a parsed price, is positive), and then equals
`⌊(1 - price/originalPrice) * 100⌋`; `discount_floor (some 100) (some 75) =
some 25`, and equal extracted prices clear the original price so the
discount is absent. -/
theorem claim6_discount :
    (∀ t : String, ∀ v ∈ parse_usd_all t, 0 < v) ∧
    (∀ prices : List ℚ, (∀ v ∈ prices, 0 < v) →
      ((price_pair prices).2 = none →
        discount_floor (price_pair prices).2 (price_pair prices).1 = none) ∧
      ∀ s o, (price_pair prices).1 = some s → (price_pair prices).2 = some o →
        0 < o ∧ discount_floor (price_pair prices).2 (price_pair prices).1
            = some ⌊(1 - s / o) * 100⌋) ∧
    (∀ x : Option ℚ, discount_floor none x = none ∧ discount_floor x none = none) ∧
    discount_floor (some 100) (some 75) = some 25 ∧
    price_pair [100, 100] = (some 100, none) := by
  refine ⟨parse_usd_all_pos, ?_, ?_, ?_, ?_⟩
  · intro prices hpos
    match prices with
    | [] =>
      refine ⟨fun _ => rfl, ?_⟩
      intro s o h1 _
      exact absurd h1 (by simp [price_pair])
    | [p] =>
      refine ⟨fun _ => rfl, ?_⟩
      intro s o _ h2
      exact absurd h2 (by simp [price_pair])
    | p :: q :: rest =>
      constructor
      · intro h2
        show discount_floor (price_pair (p :: q :: rest)).2 (some ((q :: rest).foldl min p)) = none
        rw [show (price_pair (p :: q :: rest)).2
            = (none : Option ℚ) from h2]
        rfl
      · intro s o h1 h2
        have hs : s = (q :: rest).foldl min p := (Option.some.inj h1).symm
        have hmem_s : (q :: rest).foldl min p ∈ p :: q :: rest := foldl_min_mem p (q :: rest)
        have hmem_o : (q :: rest).foldl max p ∈ p :: q :: rest := foldl_max_mem p (q :: rest)
        have hne : ¬((q :: rest).foldl min p = (q :: rest).foldl max p) := by
          intro heq
          have : (price_pair (p :: q :: rest)).2 = none := by
            show (if (q :: rest).foldl min p = (q :: rest).foldl max p then none
                else some ((q :: rest).foldl max p)) = none
            rw [if_pos heq]
          rw [h2] at this
          exact Option.noConfusion this
        have ho : o = (q :: rest).foldl max p := by
          have h2' : (if (q :: rest).foldl min p = (q :: rest).foldl max p then none
              else some ((q :: rest).foldl max p)) = some o := h2
          rw [if_neg hne] at h2'
          exact (Option.some.inj h2').symm
        have hso : s < o := by
          have hle : s ≤ o := by
            rw [hs, ho]
            exact le_foldl_max p (q :: rest) _ hmem_s
          rcases lt_or_eq_of_le hle with h | h
          · exact h
          · exact absurd (hs ▸ ho ▸ h) hne
        have hspos : 0 < s := hs ▸ hpos _ hmem_s
        have hopos : 0 < o := ho ▸ hpos _ hmem_o
        refine ⟨hopos, ?_⟩
        rw [h2, h1]
        simp only [discount_floor]
        rw [if_pos ⟨ne_of_gt hopos, ne_of_gt hspos, hopos⟩]
        congr 1
        apply max_eq_right
        apply Int.floor_nonneg.mpr
        have hdiv : s / o ≤ 1 := (div_le_one hopos).mpr (le_of_lt hso)
        have h100 : (0 : ℚ) ≤ 100 := by norm_num
        exact mul_nonneg (by linarith) h100
  · intro x
    constructor
    · rfl
    · cases x <;> rfl
  · simp only [discount_floor]
    rw [if_pos (by norm_num : (100 : ℚ) ≠ 0 ∧ (75 : ℚ) ≠ 0 ∧ (0 : ℚ) < 100)]
    rw [show ((1 : ℚ) - 75 / 100) * 100 = 25 by norm_num]
    norm_num
  · unfold price_pair
    simp only [List.foldl]
    rw [min_self, max_self, if_pos rfl]

/-! ## Lemmas about the page parser -/

theorem build_product_asin (c : Card) : (build_product c).asin = c.asin := rfl

theorem slotList50_nodup : slotList50.Nodup := by decide

theorem slotList50_pairwise : List.Pairwise (· < ·) slotList50 := by decide

theorem slotList50_bounds : ∀ x ∈ slotList50, 1 ≤ x ∧ x ≤ 50 := by decide

theorem slotList50_length : slotList50.length = 50 := rfl

theorem mem_slotList50 {r : ℤ} (h1 : 1 ≤ r) (h2 : r ≤ 50) : r ∈ slotList50 := by
  have hx : (r - 1).toNat ∈ List.range 50 := List.mem_range.mpr (by omega)
  have hm := List.mem_map_of_mem (fun i : ℕ => (i : ℤ) + 1) hx
  have hy : (fun i : ℕ => (i : ℤ) + 1) (r - 1).toNat = r := by
    show ((r - 1).toNat : ℤ) + 1 = r
    omega
  rw [hy] at hm
  exact hm

/-- Case analysis of one candidate-loop iteration: skipped, dropped for a
missing title (asin recorded), bound to its hinted slot, or queued. -/
theorem parse_step_eq (st : ParseState) (c : Card) :
    (c.asin = "" ∨ c.asin ∈ st.seen) ∧ parse_step st c = st ∨
    ¬(c.asin = "" ∨ c.asin ∈ st.seen) ∧
      (c.title = "" ∧ parse_step st c = { st with seen := c.asin :: st.seen } ∨
       c.title ≠ "" ∧
        ((∃ r, c.rankHint = some r ∧ r ≠ 0 ∧ 1 ≤ r ∧ r ≤ 50 ∧ st.byRank r = none ∧
            parse_step st c =
              ⟨fun x => if x = r then some (build_product c) else st.byRank x,
                c.asin :: st.seen, st.extras⟩) ∨
         (∀ r, c.rankHint = some r → ¬(r ≠ 0 ∧ 1 ≤ r ∧ r ≤ 50 ∧ st.byRank r = none)) ∧
           parse_step st c = ⟨st.byRank, c.asin :: st.seen, st.extras ++ [build_product c]⟩)) := by
  by_cases h1 : c.asin = "" ∨ c.asin ∈ st.seen
  · left
    refine ⟨h1, ?_⟩
    unfold parse_step
    rw [if_pos h1]
  · right
    refine ⟨h1, ?_⟩
    by_cases h2 : c.title = ""
    · left
      refine ⟨h2, ?_⟩
      unfold parse_step
      rw [if_neg h1, if_pos h2]
    · right
      refine ⟨h2, ?_⟩
      cases hr : c.rankHint with
      | none =>
        right
        refine ⟨fun r hr' => Option.noConfusion hr', ?_⟩
        unfold parse_step
        rw [if_neg h1, if_neg h2, hr]
      | some r =>
        by_cases hg : r ≠ 0 ∧ 1 ≤ r ∧ r ≤ 50 ∧ st.byRank r = none
        · left
          refine ⟨r, rfl, hg.1, hg.2.1, hg.2.2.1, hg.2.2.2, ?_⟩
          unfold parse_step
          rw [if_neg h1, if_neg h2, hr]
          show (if r ≠ 0 ∧ 1 ≤ r ∧ r ≤ 50 ∧ st.byRank r = none then _ else _) = _
          rw [if_pos hg]
        · right
          refine ⟨?_, ?_⟩
          · intro r' hr'
            rw [← Option.some.inj hr']
            exact hg
          · unfold parse_step
            rw [if_neg h1, if_neg h2, hr]
            show (if r ≠ 0 ∧ 1 ≤ r ∧ r ≤ 50 ∧ st.byRank r = none then _ else _) = _
            rw [if_neg hg]

theorem parse_step_seen_mono (st : ParseState) (c : Card) (a : String)
    (h : a ∈ st.seen) : a ∈ (parse_step st c).seen := by
  rcases parse_step_eq st c with ⟨_, heq⟩ | ⟨_, ⟨_, heq⟩ | ⟨_, ⟨r, _, _, _, _, _, heq⟩ | ⟨_, heq⟩⟩⟩ <;>
    rw [heq]
  · exact h
  · exact List.mem_cons_of_mem _ h
  · exact List.mem_cons_of_mem _ h
  · exact List.mem_cons_of_mem _ h

theorem parse_step_byRank_mono (st : ParseState) (c : Card) (r : ℤ) (p : Product)
    (h : st.byRank r = some p) : (parse_step st c).byRank r = some p := by
  rcases parse_step_eq st c with ⟨_, heq⟩ | ⟨_, ⟨_, heq⟩ | ⟨_, ⟨r0, _, _, _, _, hfree, heq⟩ | ⟨_, heq⟩⟩⟩ <;>
    rw [heq]
  · exact h
  · exact h
  · show (if r = r0 then some (build_product c) else st.byRank r) = some p
    have hne : r ≠ r0 := by
      intro hrr
      rw [hrr] at h
      rw [hfree] at h
      exact Option.noConfusion h
    rw [if_neg hne]
    exact h
  · exact h

theorem foldl_parse_inv {P : ParseState → Prop} (l : List Card) (st : ParseState)
    (h0 : P st) (hstep : ∀ s c, c ∈ l → P s → P (parse_step s c)) :
    P (l.foldl parse_step st) := by
  induction l generalizing st with
  | nil => exact h0
  | cons c l ih =>
    exact ih _ (hstep st c (List.mem_cons_self c l) h0)
      (fun s c' hc' => hstep s c' (List.mem_cons_of_mem c hc'))

theorem foldl_byRank_mono (l : List Card) (st : ParseState) (r : ℤ) (p : Product)
    (h : st.byRank r = some p) : (l.foldl parse_step st).byRank r = some p :=
  foldl_parse_inv l st h (fun s c _ hs => parse_step_byRank_mono s c r p hs)

theorem parse_cards_append (l1 l2 : List Card) :
    parse_cards (l1 ++ l2) = l2.foldl parse_step (parse_cards l1) := by
  unfold parse_cards
  exact List.foldl_append parse_step init_state l1 l2

/-- A slot the rank map binds always emits its bound record, at global rank
`page_idx*50 + slot`. -/
theorem emit_bound_mem (m : ℤ → Option Product) (pi : Nat) :
    ∀ (S : List ℤ) (ex : List Product) (r : ℤ) (p : Product), r ∈ S → m r = some p →
      { p with rank := some ((pi : ℤ) * 50 + r) } ∈ emit_slots m pi S ex := by
  intro S
  induction S with
  | nil =>
    intro ex r p h _
    exact absurd h (List.not_mem_nil r)
  | cons s S ih =>
    intro ex r p hmem hm
    rcases List.mem_cons.mp hmem with h1 | h2
    · subst h1
      simp only [emit_slots, hm]
      exact List.mem_cons_self _ _
    · cases hms : m s with
      | some q =>
        simp only [emit_slots, hms]
        exact List.mem_cons_of_mem _ (ih ex r p h2 hm)
      | none =>
        cases ex with
        | nil =>
          simp only [emit_slots, hms]
          exact ih [] r p h2 hm
        | cons e es =>
          simp only [emit_slots, hms]
          exact List.mem_cons_of_mem _ (ih es r p h2 hm)

/-- The `j`-th overflow record fills the `j`-th unbound slot, in order. -/
theorem emit_extras_mem (m : ℤ → Option Product) (pi : Nat) :
    ∀ (S : List ℤ) (ex : List Product) (j : Nat) (e : Product) (r' : ℤ),
      ex[j]? = some e → (S.filter (fun r => (m r).isNone))[j]? = some r' →
      { e with rank := some ((pi : ℤ) * 50 + r') } ∈ emit_slots m pi S ex := by
  intro S
  induction S with
  | nil =>
    intro ex j e r' _ h2
    simp at h2
  | cons s S ih =>
    intro ex j e r' h1 h2
    cases hms : m s with
    | some q =>
      have hfeq : (s :: S).filter (fun r => (m r).isNone) = S.filter (fun r => (m r).isNone) := by
        rw [List.filter_cons]
        simp [hms]
      rw [hfeq] at h2
      simp only [emit_slots, hms]
      exact List.mem_cons_of_mem _ (ih ex j e r' h1 h2)
    | none =>
      have hfeq : (s :: S).filter (fun r => (m r).isNone)
          = s :: S.filter (fun r => (m r).isNone) := by
        rw [List.filter_cons]
        simp [hms]
      rw [hfeq] at h2
      cases ex with
      | nil => simp at h1
      | cons e0 es =>
        cases j with
        | zero =>
          rw [List.getElem?_cons_zero] at h1 h2
          have he : e = e0 := (Option.some.inj h1).symm
          have hr : r' = s := (Option.some.inj h2).symm
          simp only [emit_slots, hms]
          rw [he, hr]
          exact List.mem_cons_self _ _
        | succ j =>
          rw [List.getElem?_cons_succ] at h1 h2
          simp only [emit_slots, hms]
          exact List.mem_cons_of_mem _ (ih es j e r' h1 h2)

/-- Every emitted record is a bound record or an overflow record (up to the
rank it gets stamped with); in particular it keeps that record's asin. -/
theorem emit_sub (m : ℤ → Option Product) (pi : Nat) :
    ∀ (S : List ℤ) (ex : List Product) (p : Product), p ∈ emit_slots m pi S ex →
      (∃ r ∈ S, ∃ q, m r = some q ∧ p.asin = q.asin) ∨ ∃ e ∈ ex, p.asin = e.asin := by
  intro S
  induction S with
  | nil =>
    intro ex p h
    exact absurd h (List.not_mem_nil p)
  | cons s S ih =>
    intro ex p hp
    cases hms : m s with
    | some q =>
      rw [show emit_slots m pi (s :: S) ex
          = { q with rank := some ((pi : ℤ) * 50 + s) } :: emit_slots m pi S ex from by
        simp only [emit_slots, hms]] at hp
      rcases List.mem_cons.mp hp with h1 | h2
      · left
        exact ⟨s, List.mem_cons_self s S, q, hms, by rw [h1]⟩
      · rcases ih ex p h2 with ⟨r, hr, q', hq', heq⟩ | h
        · exact Or.inl ⟨r, List.mem_cons_of_mem s hr, q', hq', heq⟩
        · exact Or.inr h
    | none =>
      cases ex with
      | nil =>
        rw [show emit_slots m pi (s :: S) [] = emit_slots m pi S [] from by
          simp only [emit_slots, hms]] at hp
        rcases ih [] p hp with ⟨r, hr, q', hq', heq⟩ | ⟨e, he, _⟩
        · exact Or.inl ⟨r, List.mem_cons_of_mem s hr, q', hq', heq⟩
        · exact absurd he (List.not_mem_nil e)
      | cons e es =>
        rw [show emit_slots m pi (s :: S) (e :: es)
            = { e with rank := some ((pi : ℤ) * 50 + s) } :: emit_slots m pi S es from by
          simp only [emit_slots, hms]] at hp
        rcases List.mem_cons.mp hp with h1 | h2
        · right
          exact ⟨e, List.mem_cons_self e es, by rw [h1]⟩
        · rcases ih es p h2 with ⟨r, hr, q', hq', heq⟩ | ⟨e', he', heq⟩
          · exact Or.inl ⟨r, List.mem_cons_of_mem s hr, q', hq', heq⟩
          · exact Or.inr ⟨e', List.mem_cons_of_mem e he', heq⟩

/-- Every emitted record carries the rank of the slot it was emitted at. -/
theorem emit_rank_mem (m : ℤ → Option Product) (pi : Nat) :
    ∀ (S : List ℤ) (ex : List Product) (p : Product), p ∈ emit_slots m pi S ex →
      ∃ r ∈ S, p.rank = some ((pi : ℤ) * 50 + r) := by
  intro S
  induction S with
  | nil =>
    intro ex p h
    exact absurd h (List.not_mem_nil p)
  | cons s S ih =>
    intro ex p hp
    cases hms : m s with
    | some q =>
      rw [show emit_slots m pi (s :: S) ex
          = { q with rank := some ((pi : ℤ) * 50 + s) } :: emit_slots m pi S ex from by
        simp only [emit_slots, hms]] at hp
      rcases List.mem_cons.mp hp with h1 | h2
      · exact ⟨s, List.mem_cons_self s S, by rw [h1]⟩
      · obtain ⟨r, hr, hrank⟩ := ih ex p h2
        exact ⟨r, List.mem_cons_of_mem s hr, hrank⟩
    | none =>
      cases ex with
      | nil =>
        rw [show emit_slots m pi (s :: S) [] = emit_slots m pi S [] from by
          simp only [emit_slots, hms]] at hp
        obtain ⟨r, hr, hrank⟩ := ih [] p hp
        exact ⟨r, List.mem_cons_of_mem s hr, hrank⟩
      | cons e es =>
        rw [show emit_slots m pi (s :: S) (e :: es)
            = { e with rank := some ((pi : ℤ) * 50 + s) } :: emit_slots m pi S es from by
          simp only [emit_slots, hms]] at hp
        rcases List.mem_cons.mp hp with h1 | h2
        · exact ⟨s, List.mem_cons_self s S, by rw [h1]⟩
        · obtain ⟨r, hr, hrank⟩ := ih es p h2
          exact ⟨r, List.mem_cons_of_mem s hr, hrank⟩

/-- Walking strictly increasing slots yields strictly increasing ranks. -/
theorem emit_pairwise (m : ℤ → Option Product) (pi : Nat) :
    ∀ (S : List ℤ) (ex : List Product), List.Pairwise (· < ·) S →
      List.Pairwise (fun p q => ∀ a b : ℤ, p.rank = some a → q.rank = some b → a < b)
        (emit_slots m pi S ex) := by
  intro S
  induction S with
  | nil =>
    intro ex _
    exact List.Pairwise.nil
  | cons s S ih =>
    intro ex hS
    have hsS : ∀ x ∈ S, s < x := (List.pairwise_cons.mp hS).1
    have hS' : List.Pairwise (· < ·) S := (List.pairwise_cons.mp hS).2
    have hhead : ∀ (p0 : Product), p0.rank = some ((pi : ℤ) * 50 + s) →
        ∀ tailex, ∀ q ∈ emit_slots m pi S tailex,
          ∀ a b : ℤ, p0.rank = some a → q.rank = some b → a < b := by
      intro p0 hp0 tailex q hq a b ha hb
      obtain ⟨r, hr, hrank⟩ := emit_rank_mem m pi S tailex q hq
      rw [hp0] at ha
      rw [hrank] at hb
      have h1 : a = (pi : ℤ) * 50 + s := (Option.some.inj ha).symm
      have h2 : b = (pi : ℤ) * 50 + r := (Option.some.inj hb).symm
      have h3 : s < r := hsS r hr
      omega
    cases hms : m s with
    | some q =>
      rw [show emit_slots m pi (s :: S) ex
          = { q with rank := some ((pi : ℤ) * 50 + s) } :: emit_slots m pi S ex from by
        simp only [emit_slots, hms]]
      exact List.pairwise_cons.mpr ⟨fun q' hq' => hhead _ rfl ex q' hq', ih ex hS'⟩
    | none =>
      cases ex with
      | nil =>
        rw [show emit_slots m pi (s :: S) [] = emit_slots m pi S [] from by
          simp only [emit_slots, hms]]
        exact ih [] hS'
      | cons e es =>
        rw [show emit_slots m pi (s :: S) (e :: es)
            = { e with rank := some ((pi : ℤ) * 50 + s) } :: emit_slots m pi S es from by
          simp only [emit_slots, hms]]
        exact List.pairwise_cons.mpr ⟨fun q' hq' => hhead _ rfl es q' hq', ih es hS'⟩

/-- The walk emits `min |slots| (#bound + #overflow)` records: every slot
emits one record while a bound record or an overflow record remains. -/
theorem emit_len_eq (m : ℤ → Option Product) (pi : Nat) :
    ∀ (S : List ℤ) (ex : List Product),
      (emit_slots m pi S ex).length
        = min S.length (S.countP (fun r => (m r).isSome) + ex.length) := by
  intro S
  induction S with
  | nil =>
    intro ex
    simp [emit_slots]
  | cons s S ih =>
    intro ex
    cases hms : m s with
    | some q =>
      have hcnt : (s :: S).countP (fun r => (m r).isSome)
          = S.countP (fun r => (m r).isSome) + 1 := by
        rw [List.countP_cons]
        simp [hms]
      rw [show emit_slots m pi (s :: S) ex
          = { q with rank := some ((pi : ℤ) * 50 + s) } :: emit_slots m pi S ex from by
        simp only [emit_slots, hms]]
      simp only [List.length_cons, hcnt, ih ex]
      omega
    | none =>
      have hcnt : (s :: S).countP (fun r => (m r).isSome)
          = S.countP (fun r => (m r).isSome) := by
        rw [List.countP_cons]
        simp [hms]
      cases ex with
      | nil =>
        rw [show emit_slots m pi (s :: S) [] = emit_slots m pi S [] from by
          simp only [emit_slots, hms]]
        rw [ih [], hcnt]
        have hle : S.countP (fun r => (m r).isSome) ≤ S.length := List.countP_le_length _
        simp only [List.length_cons, List.length_nil, Nat.add_zero]
        omega
      | cons e es =>
        rw [show emit_slots m pi (s :: S) (e :: es)
            = { e with rank := some ((pi : ℤ) * 50 + s) } :: emit_slots m pi S es from by
          simp only [emit_slots, hms]]
        simp only [List.length_cons, hcnt, ih es]
        omega

/-- If bound records have pairwise-distinct asins across distinct slots, the
overflow queue's asins are distinct, and bound and overflow asins are
disjoint, then the emitted records' asins are distinct. -/
theorem emit_nodup (m : ℤ → Option Product) (pi : Nat) :
    ∀ (S : List ℤ) (ex : List Product),
      S.Nodup →
      (∀ r r' q q', r ∈ S → r' ∈ S → m r = some q → m r' = some q' →
        q.asin = q'.asin → r = r') →
      (ex.map Product.asin).Nodup →
      (∀ r ∈ S, ∀ q, m r = some q → ∀ e ∈ ex, q.asin ≠ e.asin) →
      ((emit_slots m pi S ex).map Product.asin).Nodup := by
  intro S
  induction S with
  | nil =>
    intro ex _ _ _ _
    exact List.Pairwise.nil
  | cons s S ih =>
    intro ex hnd hinj hexnd hcross
    have hsS : s ∉ S := (List.nodup_cons.mp hnd).1
    have hnd' : S.Nodup := (List.nodup_cons.mp hnd).2
    have hinj' : ∀ r r' q q', r ∈ S → r' ∈ S → m r = some q → m r' = some q' →
        q.asin = q'.asin → r = r' :=
      fun r r' q q' hr hr' => hinj r r' q q' (List.mem_cons_of_mem s hr) (List.mem_cons_of_mem s hr')
    cases hms : m s with
    | some q =>
      rw [show emit_slots m pi (s :: S) ex
          = { q with rank := some ((pi : ℤ) * 50 + s) } :: emit_slots m pi S ex from by
        simp only [emit_slots, hms]]
      rw [List.map_cons]
      apply List.nodup_cons.mpr
      constructor
      · intro hmem
        obtain ⟨x, hx, hxeq⟩ := List.mem_map.mp hmem
        rcases emit_sub m pi S ex x hx with ⟨r, hr, q', hq', heqa⟩ | ⟨e, he, heqa⟩
        · have hrs : r = s := hinj r s q' q (List.mem_cons_of_mem s hr) (List.mem_cons_self s S)
            hq' hms (by rw [← heqa, hxeq])
          exact hsS (hrs ▸ hr)
        · exact hcross s (List.mem_cons_self s S) q hms e he (by rw [← hxeq, heqa])
      · exact ih ex hnd' hinj' hexnd
          (fun r hr => hcross r (List.mem_cons_of_mem s hr))
    | none =>
      cases ex with
      | nil =>
        rw [show emit_slots m pi (s :: S) [] = emit_slots m pi S [] from by
          simp only [emit_slots, hms]]
        exact ih [] hnd' hinj' (by simp) (fun r _ q _ e he => absurd he (List.not_mem_nil e))
      | cons e es =>
        rw [show emit_slots m pi (s :: S) (e :: es)
            = { e with rank := some ((pi : ℤ) * 50 + s) } :: emit_slots m pi S es from by
          simp only [emit_slots, hms]]
        rw [List.map_cons]
        have hehd : e.asin ∉ es.map Product.asin := (List.nodup_cons.mp hexnd).1
        have hesnd : (es.map Product.asin).Nodup := (List.nodup_cons.mp hexnd).2
        apply List.nodup_cons.mpr
        constructor
        · intro hmem
          obtain ⟨x, hx, hxeq⟩ := List.mem_map.mp hmem
          rcases emit_sub m pi S es x hx with ⟨r, hr, q', hq', heqa⟩ | ⟨e', he', heqa⟩
          · exact hcross r (List.mem_cons_of_mem s hr) q' hq' e
              (List.mem_cons_self e es) (by rw [← heqa, hxeq])
          · exact hehd (by
              rw [show e.asin = e'.asin from by rw [← hxeq, heqa]]
              exact List.mem_map_of_mem Product.asin he')
        · exact ih es hnd' hinj' hesnd
            (fun r hr q hq e' he' => hcross r (List.mem_cons_of_mem s hr) q hq e'
              (List.mem_cons_of_mem e he'))

/-! ## The parser loop invariant -/

/-- Invariant of the candidate loop's state: bound slots are local slots
`1..50`; every placed record's asin has been recorded as seen; distinct
bound slots hold records with distinct asins; the overflow queue's asins
are distinct; bound and overflow asins are disjoint. -/
structure StInv (st : ParseState) : Prop where
  dom : ∀ r p, st.byRank r = some p → 1 ≤ r ∧ r ≤ 50
  seenPlaced : ∀ p : Product,
    ((∃ r, st.byRank r = some p) ∨ p ∈ st.extras) → p.asin ∈ st.seen
  slotInj : ∀ r r' p p', st.byRank r = some p → st.byRank r' = some p' →
    p.asin = p'.asin → r = r'
  extrasNodup : (st.extras.map Product.asin).Nodup
  cross : ∀ r p, st.byRank r = some p → ∀ e ∈ st.extras, p.asin ≠ e.asin

theorem stInv_init : StInv init_state := by
  constructor
  · intro r p hb
    exact Option.noConfusion hb
  · intro p hp
    rcases hp with ⟨r, hb⟩ | hex
    · exact Option.noConfusion hb
    · exact absurd hex (List.not_mem_nil p)
  · intro r r' p p' hb
    exact Option.noConfusion hb
  · exact List.Pairwise.nil
  · intro r p hb
    exact Option.noConfusion hb

theorem stInv_step (st : ParseState) (c : Card) (h : StInv st) :
    StInv (parse_step st c) := by
  rcases parse_step_eq st c with ⟨_, heq⟩ | ⟨hno, hrest⟩
  · rw [heq]
    exact h
  have hnoseen : c.asin ∉ st.seen := (not_or.mp hno).2
  have hfresh : ∀ p : Product,
      ((∃ r, st.byRank r = some p) ∨ p ∈ st.extras) → p.asin ≠ c.asin := by
    intro p hp heq'
    exact hnoseen (heq' ▸ h.seenPlaced p hp)
  rcases hrest with ⟨_, heq⟩ | ⟨_, ⟨r0, _, _, h1, h50, hfree, heq⟩ | ⟨_, heq⟩⟩
  · rw [heq]
    refine ⟨h.dom, ?_, h.slotInj, h.extrasNodup, h.cross⟩
    intro p hp
    exact List.mem_cons_of_mem _ (h.seenPlaced p hp)
  · rw [heq]
    refine ⟨?_, ?_, ?_, h.extrasNodup, ?_⟩
    · intro r p hb
      have hb' : (if r = r0 then some (build_product c) else st.byRank r) = some p := hb
      by_cases hrr : r = r0
      · rw [hrr]
        exact ⟨h1, h50⟩
      · rw [if_neg hrr] at hb'
        exact h.dom r p hb'
    · intro p hp
      rcases hp with ⟨r, hb⟩ | hex
      · have hb' : (if r = r0 then some (build_product c) else st.byRank r) = some p := hb
        by_cases hrr : r = r0
        · rw [if_pos hrr] at hb'
          have : p.asin = c.asin := by
            rw [← Option.some.inj hb', build_product_asin]
          rw [this]
          exact List.mem_cons_self _ _
        · rw [if_neg hrr] at hb'
          exact List.mem_cons_of_mem _ (h.seenPlaced p (Or.inl ⟨r, hb'⟩))
      · exact List.mem_cons_of_mem _ (h.seenPlaced p (Or.inr hex))
    · intro r r' p p' hb hb' heqa
      have hc : (if r = r0 then some (build_product c) else st.byRank r) = some p := hb
      have hc' : (if r' = r0 then some (build_product c) else st.byRank r') = some p' := hb'
      by_cases hrr : r = r0 <;> by_cases hrr' : r' = r0
      · rw [hrr, hrr']
      · rw [if_pos hrr] at hc
        rw [if_neg hrr'] at hc'
        have hpa : p.asin = c.asin := by rw [← Option.some.inj hc, build_product_asin]
        exact absurd (hpa ▸ heqa).symm (hfresh p' (Or.inl ⟨r', hc'⟩))
      · rw [if_neg hrr] at hc
        rw [if_pos hrr'] at hc'
        have hpa : p'.asin = c.asin := by rw [← Option.some.inj hc', build_product_asin]
        exact absurd (hpa ▸ heqa.symm).symm (hfresh p (Or.inl ⟨r, hc⟩))
      · rw [if_neg hrr] at hc
        rw [if_neg hrr'] at hc'
        exact h.slotInj r r' p p' hc hc' heqa
    · intro r p hb e he
      have hc : (if r = r0 then some (build_product c) else st.byRank r) = some p := hb
      by_cases hrr : r = r0
      · rw [if_pos hrr] at hc
        have hpa : p.asin = c.asin := by rw [← Option.some.inj hc, build_product_asin]
        intro hh
        exact hfresh e (Or.inr he) (hh ▸ hpa)
      · rw [if_neg hrr] at hc
        exact h.cross r p hc e he
  · rw [heq]
    refine ⟨h.dom, ?_, h.slotInj, ?_, ?_⟩
    · intro p hp
      rcases hp with ⟨r, hb⟩ | hex
      · exact List.mem_cons_of_mem _ (h.seenPlaced p (Or.inl ⟨r, hb⟩))
      · rcases List.mem_append.mp hex with h2 | h3
        · exact List.mem_cons_of_mem _ (h.seenPlaced p (Or.inr h2))
        · rw [List.mem_singleton] at h3
          rw [h3, build_product_asin]
          exact List.mem_cons_self _ _
    · rw [List.map_append]
      apply List.Nodup.append h.extrasNodup (by simp)
      intro a ha hb
      rw [show ([build_product c].map Product.asin) = [c.asin] from rfl,
        List.mem_singleton] at hb
      obtain ⟨e, he, heq'⟩ := List.mem_map.mp ha
      exact hfresh e (Or.inr he) (heq'.trans hb)
    · intro r p hb e he
      rcases List.mem_append.mp he with h2 | h3
      · exact h.cross r p hb e h2
      · rw [List.mem_singleton] at h3
        rw [h3, build_product_asin]
        exact hfresh p (Or.inl ⟨r, hb⟩)

theorem parse_cards_inv (cards : List Card) : StInv (parse_cards cards) :=
  foldl_parse_inv cards init_state stInv_init (fun s c _ hs => stInv_step s c hs)

/-- **C7**: for any sequence of located candidate cards (hence for any input
document) and any page index, a single page parse emits no two records
sharing the same identifier (ASIN). -/
theorem claim7_no_dup_asin (cards : List Card) (pi : Nat) :
    ((parse_http cards pi).map Product.asin).Nodup := by
  have hinv := parse_cards_inv cards
  unfold parse_http
  apply emit_nodup
  · exact slotList50_nodup
  · intro r r' q q' _ _ hq hq' heq
    exact hinv.slotInj r r' q q' hq hq' heq
  · exact hinv.extrasNodup
  · intro r _ q hq e he
    exact hinv.cross r q hq e he

/-- **C8**: for any sequence of located candidate cards (hence for any input
document) and any page index, the page parse emits at most 50 records, every
emitted record's rank lies in `[pageIdx*50+1, pageIdx*50+50]`, and the ranks
of the output list are strictly increasing (hence duplicate-free). -/
theorem claim8_rank_invariants (cards : List Card) (pi : Nat) :
    (parse_http cards pi).length ≤ 50 ∧
    (∀ p ∈ parse_http cards pi,
      ∃ g : ℤ, p.rank = some g ∧ (pi : ℤ) * 50 + 1 ≤ g ∧ g ≤ (pi : ℤ) * 50 + 50) ∧
    List.Pairwise (fun p q => ∀ a b : ℤ, p.rank = some a → q.rank = some b → a < b)
      (parse_http cards pi) := by
  refine ⟨?_, ?_, ?_⟩
  · show (emit_slots _ pi slotList50 _).length ≤ 50
    rw [emit_len_eq]
    calc min slotList50.length _ ≤ slotList50.length := min_le_left _ _
      _ = 50 := slotList50_length
  · intro p hp
    obtain ⟨r, hr, hrank⟩ := emit_rank_mem _ pi slotList50 _ p hp
    obtain ⟨hb1, hb2⟩ := slotList50_bounds r hr
    exact ⟨(pi : ℤ) * 50 + r, hrank, by omega, by omega⟩
  · exact emit_pairwise _ pi slotList50 _ slotList50_pairwise

/-- **C10**: a candidate whose identifier is extracted but whose title is
unresolvable is dropped with its identifier recorded as seen; consequently
no record with that identifier appears in the page's output, even when a
later candidate carries it with a valid title. -/
theorem claim10_title_drop (pre : List Card) (c : Card) (post : List Card) (pi : Nat)
    (h1 : c.asin ≠ "") (h2 : c.title = "")
    (h3 : ∀ c' ∈ pre, c'.asin ≠ c.asin) :
    c.asin ∈ (parse_cards (pre ++ c :: post)).seen ∧
    ∀ p ∈ parse_http (pre ++ c :: post) pi, p.asin ≠ c.asin := by
  have hpre : c.asin ∉ (parse_cards pre).seen ∧
      (∀ p : Product, ((∃ r, (parse_cards pre).byRank r = some p) ∨
        p ∈ (parse_cards pre).extras) → p.asin ≠ c.asin) := by
    apply foldl_parse_inv (P := fun st => c.asin ∉ st.seen ∧
      ∀ p : Product, ((∃ r, st.byRank r = some p) ∨ p ∈ st.extras) → p.asin ≠ c.asin)
    · refine ⟨List.not_mem_nil _, ?_⟩
      intro p hp
      rcases hp with ⟨r, hb⟩ | hex
      · exact Option.noConfusion hb
      · exact absurd hex (List.not_mem_nil p)
    · intro s c' hc' ⟨hseen, hplaced⟩
      have hc'a : c'.asin ≠ c.asin := h3 c' hc'
      rcases parse_step_eq s c' with ⟨_, heq⟩ | ⟨hno, hrest⟩
      · rw [heq]
        exact ⟨hseen, hplaced⟩
      rcases hrest with ⟨_, heq⟩ | ⟨_, ⟨r0, _, _, _, _, _, heq⟩ | ⟨_, heq⟩⟩
      · rw [heq]
        refine ⟨?_, hplaced⟩
        intro hmem
        rcases List.mem_cons.mp hmem with hx | hx
        · exact hc'a hx.symm
        · exact hseen hx
      · rw [heq]
        constructor
        · intro hmem
          rcases List.mem_cons.mp hmem with hx | hx
          · exact hc'a hx.symm
          · exact hseen hx
        · intro p hp
          rcases hp with ⟨r, hb⟩ | hex
          · have hb' : (if r = r0 then some (build_product c') else s.byRank r) = some p := hb
            by_cases hrr : r = r0
            · rw [if_pos hrr] at hb'
              rw [← Option.some.inj hb', build_product_asin]
              exact hc'a
            · rw [if_neg hrr] at hb'
              exact hplaced p (Or.inl ⟨r, hb'⟩)
          · exact hplaced p (Or.inr hex)
      · rw [heq]
        constructor
        · intro hmem
          rcases List.mem_cons.mp hmem with hx | hx
          · exact hc'a hx.symm
          · exact hseen hx
        · intro p hp
          rcases hp with ⟨r, hb⟩ | hex
          · exact hplaced p (Or.inl ⟨r, hb⟩)
          · rcases List.mem_append.mp hex with hx | hx
            · exact hplaced p (Or.inr hx)
            · rw [List.mem_singleton] at hx
              rw [hx, build_product_asin]
              exact hc'a
  set st0 := parse_cards pre with hst0
  have hstep : parse_step st0 c = { st0 with seen := c.asin :: st0.seen } := by
    rcases parse_step_eq st0 c with ⟨hsk, _⟩ | ⟨_, hrest⟩
    · rcases hsk with hx | hx
      · exact absurd hx h1
      · exact absurd hx hpre.1
    rcases hrest with ⟨_, heq⟩ | ⟨ht, _⟩
    · exact heq
    · exact absurd h2 ht
  have hQ : c.asin ∈ (parse_cards (pre ++ c :: post)).seen ∧
      (∀ p : Product, ((∃ r, (parse_cards (pre ++ c :: post)).byRank r = some p) ∨
        p ∈ (parse_cards (pre ++ c :: post)).extras) → p.asin ≠ c.asin) := by
    rw [parse_cards_append]
    show c.asin ∈ (List.foldl parse_step st0 (c :: post)).seen ∧ _
    rw [show List.foldl parse_step st0 (c :: post)
        = List.foldl parse_step (parse_step st0 c) post from rfl, hstep]
    apply foldl_parse_inv (P := fun st => c.asin ∈ st.seen ∧
      ∀ p : Product, ((∃ r, st.byRank r = some p) ∨ p ∈ st.extras) → p.asin ≠ c.asin)
    · exact ⟨List.mem_cons_self _ _, hpre.2⟩
    · intro s c' _ ⟨hseen, hplaced⟩
      rcases parse_step_eq s c' with ⟨_, heq⟩ | ⟨hno, hrest⟩
      · rw [heq]
        exact ⟨hseen, hplaced⟩
      have hc'a : c'.asin ≠ c.asin := by
        intro hx
        exact (not_or.mp hno).2 (hx ▸ hseen)
      rcases hrest with ⟨_, heq⟩ | ⟨_, ⟨r0, _, _, _, _, _, heq⟩ | ⟨_, heq⟩⟩
      · rw [heq]
        exact ⟨List.mem_cons_of_mem _ hseen, hplaced⟩
      · rw [heq]
        refine ⟨List.mem_cons_of_mem _ hseen, ?_⟩
        intro p hp
        rcases hp with ⟨r, hb⟩ | hex
        · have hb' : (if r = r0 then some (build_product c') else s.byRank r) = some p := hb
          by_cases hrr : r = r0
          · rw [if_pos hrr] at hb'
            rw [← Option.some.inj hb', build_product_asin]
            exact hc'a
          · rw [if_neg hrr] at hb'
            exact hplaced p (Or.inl ⟨r, hb'⟩)
        · exact hplaced p (Or.inr hex)
      · rw [heq]
        refine ⟨List.mem_cons_of_mem _ hseen, ?_⟩
        intro p hp
        rcases hp with ⟨r, hb⟩ | hex
        · exact hplaced p (Or.inl ⟨r, hb⟩)
        · rcases List.mem_append.mp hex with hx | hx
          · exact hplaced p (Or.inr hx)
          · rw [List.mem_singleton] at hx
            rw [hx, build_product_asin]
            exact hc'a
  refine ⟨hQ.1, ?_⟩
  intro p hp
  rcases emit_sub _ pi slotList50 _ p hp with ⟨r, _, q, hq, heqa⟩ | ⟨e, he, heqa⟩
  · rw [heqa]
    exact hQ.2 q (Or.inl ⟨r, hq⟩)
  · rw [heqa]
    exact hQ.2 e (Or.inr he)

/-- **C4**: (1) a card whose rank hint is a valid unused local slot in
`[1,50]` is bound to exactly that slot regardless of its encounter position
(the surrounding `pre`/`post` are arbitrary); (2) cards queued in the
overflow queue fill the unfilled slots, walked in order, FIFO: the j-th
overflow record lands in the j-th free slot; (3) the output fills
`min 50 (#bound + #overflow)` slots, so no slot is left empty while
overflow records remain. -/
theorem claim4_slot_assignment :
    (∀ (pre : List Card) (c : Card) (post : List Card) (pi : Nat) (h : ℤ),
      c.asin ≠ "" → c.asin ∉ (parse_cards pre).seen → c.title ≠ "" →
      c.rankHint = some h → 1 ≤ h → h ≤ 50 → (parse_cards pre).byRank h = none →
      { build_product c with rank := some ((pi : ℤ) * 50 + h) }
        ∈ parse_http (pre ++ c :: post) pi) ∧
    (∀ (cards : List Card) (pi : Nat) (j : Nat) (e : Product) (r' : ℤ),
      (parse_cards cards).extras[j]? = some e →
      (slotList50.filter (fun r => ((parse_cards cards).byRank r).isNone))[j]? = some r' →
      { e with rank := some ((pi : ℤ) * 50 + r') } ∈ parse_http cards pi) ∧
    ∀ (cards : List Card) (pi : Nat),
      (parse_http cards pi).length
          = min 50 (slotList50.countP (fun r => ((parse_cards cards).byRank r).isSome)
              + (parse_cards cards).extras.length) ∧
      ((parse_http cards pi).length < 50 →
        (parse_http cards pi).length
          = slotList50.countP (fun r => ((parse_cards cards).byRank r).isSome)
              + (parse_cards cards).extras.length) := by
  refine ⟨?_, ?_, ?_⟩
  · intro pre c post pi h ha hseen ht hhint h1 h50 hfree
    have hstep : (parse_step (parse_cards pre) c).byRank h = some (build_product c) := by
      rcases parse_step_eq (parse_cards pre) c with ⟨hsk, _⟩ | ⟨_, hrest⟩
      · rcases hsk with hx | hx
        · exact absurd hx ha
        · exact absurd hx hseen
      rcases hrest with ⟨hti, _⟩ | ⟨_, ⟨r0, hr0, _, _, _, _, heq⟩ | ⟨hnb, _⟩⟩
      · exact absurd hti ht
      · have hr0h : r0 = h := Option.some.inj (hr0.symm.trans hhint)
        rw [heq]
        show (if h = r0 then some (build_product c) else (parse_cards pre).byRank h)
          = some (build_product c)
        rw [if_pos hr0h.symm]
      · exact absurd ⟨by omega, h1, h50, hfree⟩ (hnb h hhint)
    have hfin : (parse_cards (pre ++ c :: post)).byRank h = some (build_product c) := by
      rw [parse_cards_append,
        show List.foldl parse_step (parse_cards pre) (c :: post)
          = List.foldl parse_step (parse_step (parse_cards pre) c) post from rfl]
      exact foldl_byRank_mono post _ h _ hstep
    exact emit_bound_mem _ pi slotList50 _ h _ (mem_slotList50 h1 h50) hfin
  · intro cards pi j e r' hje hjr
    exact emit_extras_mem _ pi slotList50 _ j e r' hje hjr
  · intro cards pi
    constructor
    · show (emit_slots _ pi slotList50 _).length = _
      rw [emit_len_eq, slotList50_length]
    · intro hlt
      have heq50 : (parse_http cards pi).length
          = min 50 (slotList50.countP (fun r => ((parse_cards cards).byRank r).isSome)
              + (parse_cards cards).extras.length) := by
        show (emit_slots _ pi slotList50 _).length = _
        rw [emit_len_eq, slotList50_length]
      rw [heq50] at hlt ⊢
      omega

/-- A candidate with identifier but no resolvable title. -/
def cardDropped : Card := ⟨none, "B00TESTDROP", "", "", "", ""⟩

/-- A later candidate with the same identifier and a valid title. -/
def cardRescued : Card := ⟨none, "B00TESTDROP", "Same item, titled", "", "", ""⟩

theorem claim10_witness :
    cardDropped.asin ∈ (parse_cards (cardDropped :: [cardRescued])).seen ∧
    ∀ p ∈ parse_http (cardDropped :: [cardRescued]) 0, p.asin ≠ cardDropped.asin :=
  claim10_title_drop [] cardDropped [cardRescued] 0 (by decide) rfl
    (fun c' hc' => absurd hc' (List.not_mem_nil c'))

/-! ## Lemmas about the transports and the orchestrator -/

theorem pw_loop_ok (g : Nat → Nat → Except Unit (List Product)) (p : Nat)
    (hok : ∀ u, ∃ L, g p u = .ok L) :
    ∀ (us : List Nat) (got : List Product), ∃ L, pw_fetch_loop g p us got = .ok L := by
  intro us
  induction us with
  | nil =>
    intro got
    exact ⟨got, rfl⟩
  | cons u us ih =>
    intro got
    obtain ⟨L, hL⟩ := hok u
    simp only [pw_fetch_loop, hL]
    by_cases h48 : 48 ≤ L.length
    · rw [if_pos h48]
      exact ⟨L, rfl⟩
    · rw [if_neg h48]
      exact ih L

theorem fetch_by_playwright_ok (g : Nat → Nat → Except Unit (List Product))
    (hok : ∀ p u, ∃ L, g p u = .ok L) :
    ∃ L, fetch_by_playwright g = .ok L := by
  obtain ⟨A, hA⟩ := pw_loop_ok g 0 (hok 0) urlIdx []
  obtain ⟨B, hB⟩ := pw_loop_ok g 1 (hok 1) urlIdx []
  refine ⟨A ++ B, ?_⟩
  unfold fetch_by_playwright
  rw [hA, hB]

/-- **C2 (amended)**: within the static (HTTP) strategy an individual
URL-candidate failure is swallowed and the next candidate tried, and a page
whose candidates all fail contributes zero records; the orchestrator returns
normally whenever every rendering-strategy page fetch returns normally — but
an exception from a rendering (Playwright) page fetch is not caught and
propagates out of the orchestrator (see the counterexample). -/
theorem claim2_error_handling (f g1 g2 : Nat → Nat → Except Unit (List Product)) :
    (∀ (p u : Nat) (us : List Nat) (got : List Product),
      f p u = .error () → http_fetch_loop f p (u :: us) got = http_fetch_loop f p us got) ∧
    (∀ p : Nat, (∀ u, f p u = .error ()) → http_fetch_loop f p urlIdx [] = []) ∧
    ((∀ p u, ∃ L, g1 p u = .ok L) → (∀ p u, ∃ L, g2 p u = .ok L) →
      ∃ L, (fetch_products f g1 g2).1 = .ok L) := by
  refine ⟨?_, ?_, ?_⟩
  · intro p u us got herr
    simp only [http_fetch_loop, herr]
  · intro p hall
    show http_fetch_loop f p [0, 1, 2] [] = []
    simp only [http_fetch_loop, hall 0, hall 1, hall 2]
  · intro hok1 hok2
    simp only [fetch_products]
    by_cases hlow : (if 96 ≤ (fetch_by_http f).length then fetch_by_http f else []).length < 96
    · rw [if_pos hlow]
      obtain ⟨L1, hL1⟩ := fetch_by_playwright_ok g1 hok1
      rw [hL1]
      dsimp only
      by_cases hm : (merge_by_rank
          [if 96 ≤ (fetch_by_http f).length then fetch_by_http f else [], L1]).length < 100
      · rw [if_pos hm]
        obtain ⟨L2, hL2⟩ := fetch_by_playwright_ok g2 hok2
        rw [hL2]
        exact ⟨_, rfl⟩
      · rw [if_neg hm]
        exact ⟨_, rfl⟩
    · rw [if_neg hlow]
      dsimp only
      by_cases hm : (if 96 ≤ (fetch_by_http f).length then fetch_by_http f else []).length < 100
      · rw [if_pos hm]
        obtain ⟨L2, hL2⟩ := fetch_by_playwright_ok g2 hok2
        rw [hL2]
        exact ⟨_, rfl⟩
      · rw [if_neg hm]
        exact ⟨_, rfl⟩

/-- A page-fetch oracle in which every fetch raises. -/
def oracleErr : Nat → Nat → Except Unit (List Product) := fun _ _ => .error ()

/-- **C2 counterexample**: with the static strategy failing totally and every
rendering-strategy page fetch raising, the orchestrator raises (returns the
propagated exception) instead of returning whatever was collected — so "the
orchestrator never raises" is false as stated. -/
theorem claim2_counterexample :
    (fetch_products oracleErr oracleErr oracleErr).1 = Except.error () := rfl

/-- A minimal record at a given global rank. -/
def demoProd (r : ℤ) : Product :=
  ⟨some r, "", "item", none, none, none, "", "B000000000"⟩

/-- A static oracle yielding 48 records per page (ranks 1..48 and 51..98):
total static yield 96. -/
def oracleHttp96 : Nat → Nat → Except Unit (List Product) := fun p _ =>
  if p = 0 then .ok ((List.range 48).map (fun i : ℕ => demoProd ((i : ℤ) + 1)))
  else .ok ((List.range 48).map (fun i : ℕ => demoProd ((i : ℤ) + 51)))

/-- A static oracle yielding 50 records per page: total static yield 100. -/
def oracleHttp100 : Nat → Nat → Except Unit (List Product) := fun p _ =>
  if p = 0 then .ok ((List.range 50).map (fun i : ℕ => demoProd ((i : ℤ) + 1)))
  else .ok ((List.range 50).map (fun i : ℕ => demoProd ((i : ℤ) + 51)))

/-- A rendering oracle returning one record (rank 99) per page fetch. -/
def oraclePwOne : Nat → Nat → Except Unit (List Product) := fun _ _ =>
  .ok [demoProd 99]

/-- **C1 counterexample**: a static pass yielding exactly 96 records meets
the ≥ 96 threshold, yet the orchestrator still invokes the rendering
strategy once (the "< 100" retry), so "no rendering-strategy pass is
invoked" is false as stated. -/
theorem claim1_counterexample :
    96 ≤ (fetch_by_http oracleHttp96).length ∧
    (fetch_products oracleHttp96 oraclePwOne oraclePwOne).2 = 1 ∧
    ¬(fetch_products oracleHttp96 oraclePwOne oraclePwOne).2 = 0 := by
  refine ⟨by decide, rfl, by decide⟩

/-- **C1 (amended)**: when the static yield is ≥ 96 the first rendering pass
is skipped, but the static result is accepted as-is — no rendering pass at
all, final output equal to the static records (merged by rank; verbatim when
they are rank-sound) — only when the static yield reaches 100; with a yield
in `[96, 100)` the rendering strategy is still invoked exactly once (the
"once more" retry), and when the static tier under-yields (< 96) the
rendering strategy runs and is invoked a second time exactly when the merged
yield after the first rendering pass is still below 100. -/
theorem claim1_threshold (f g1 g2 : Nat → Nat → Except Unit (List Product)) :
    (100 ≤ (fetch_by_http f).length →
      fetch_products f g1 g2 = (.ok (merge_by_rank [fetch_by_http f]), 0)) ∧
    (100 ≤ (fetch_by_http f).length → rankSound (fetch_by_http f) →
      fetch_products f g1 g2 = (.ok (fetch_by_http f), 0)) ∧
    (96 ≤ (fetch_by_http f).length → (fetch_by_http f).length < 100 →
      (fetch_products f g1 g2).2 = 1) ∧
    ((fetch_by_http f).length < 96 →
      ∀ L1, fetch_by_playwright g1 = .ok L1 →
        (fetch_products f g1 g2).2
          = if (merge_by_rank [[], L1]).length < 100 then 2 else 1) := by
  have hmain : ∀ h100 : 100 ≤ (fetch_by_http f).length,
      fetch_products f g1 g2 = (.ok (merge_by_rank [fetch_by_http f]), 0) := by
    intro h100
    simp only [fetch_products]
    rw [if_pos (by omega : 96 ≤ (fetch_by_http f).length)]
    rw [if_neg (by omega : ¬(fetch_by_http f).length < 96)]
    dsimp only
    rw [if_neg (by omega : ¬(fetch_by_http f).length < 100)]
  refine ⟨hmain, ?_, ?_, ?_⟩
  · intro h100 hsound
    rw [hmain h100, merge_single_of_rankSound _ hsound]
  · intro h96 h100
    simp only [fetch_products]
    rw [if_pos h96]
    rw [if_neg (by omega : ¬(fetch_by_http f).length < 96)]
    dsimp only
    rw [if_pos h100]
    cases hg2 : fetch_by_playwright g2 <;> rfl
  · intro hlow L1 hok
    simp only [fetch_products]
    rw [if_neg (by omega : ¬96 ≤ (fetch_by_http f).length)]
    rw [if_pos (by simp : (([] : List Product)).length < 96)]
    rw [hok]
    dsimp only
    by_cases hm : (merge_by_rank [[], L1]).length < 100
    · rw [if_pos hm, if_pos hm]
      cases hg2 : fetch_by_playwright g2 <;> rfl
    · rw [if_neg hm, if_neg hm]

end AZBnp
